import Mathlib

set_option maxHeartbeats 1000000

/-!
Shallow embedding of pygments/formatters/rtf.py (class RtfFormatter).
Text is modelled as List Char; Python str.replace with a single-character
pattern is modelled by pyReplaceChar; the %d conversion by natToDec.
-/

/-- Decimal digit character for a digit d, as produced by the %d conversion. -/
def digitChar (d : Nat) : Char := Char.ofNat (48 + d)

/-- Accumulator-style decimal rendering of a natural number, most significant
digit first; helper for natToDec. -/
def natToDecAux (n : Nat) (acc : List Char) : List Char :=
  if h : n = 0 then acc
  else natToDecAux (n / 10) (digitChar (n % 10) :: acc)
termination_by n
decreasing_by exact Nat.div_lt_self (Nat.pos_of_ne_zero h) (by omega)

/-- Decimal rendering of a natural number; models the %d conversion of
Python for non-negative values. -/
def natToDec (n : Nat) : List Char := if n = 0 then ['0'] else natToDecAux n []

/-- Python str.replace(pat, rep) restricted to a single-character pattern,
which is how every replace in rtf.py is invoked. -/
def pyReplaceChar (pat : Char) (rep : List Char) : List Char → List Char
  | [] => []
  | c :: rest => (if c = pat then rep else [c]) ++ pyReplaceChar pat rep rest

/-- Embedding of RtfFormatter._escape: replace backslash, then the opening
brace, then the closing brace, each by a backslash-prefixed pair. -/
def _escape (t : List Char) : List Char :=
  pyReplaceChar '\x7d' ['\\', '\x7d']
    (pyReplaceChar '\x7b' ['\\', '\x7b']
      (pyReplaceChar '\\' ['\\', '\\'] t))

/-- Modelled from the spec: pygments.util.surrogatepair is imported by rtf.py
but its definition is not part of the source tree under analysis; per the
spec it performs the standard UTF-16 surrogate-pair decomposition of a code
point at or above 65536, high surrogate first. -/
def surrogatepair (c : Nat) : Nat × Nat :=
  (55296 + (c - 65536) / 1024, 56320 + (c - 65536) % 1024)

/-- Numeric escape group emitted by _escape_text: a brace-wrapped backslash-u
control word carrying the decimal value n. -/
def uEscape (n : Nat) : List Char := '\x7b' :: '\\' :: 'u' :: (natToDec n ++ ['\x7d'])

/-- Per-character body of the loop in RtfFormatter._escape_text: code points
below 128 pass through, code points in [128, 65536) become one numeric escape
group, larger code points become the two groups of the surrogate pair. -/
def escapeChar (c : Char) : List Char :=
  if c.toNat < 128 then [c]
  else if c.toNat < 65536 then uEscape c.toNat
  else uEscape (surrogatepair c.toNat).1 ++ uEscape (surrogatepair c.toNat).2

/-- Embedding of RtfFormatter._escape_text: the empty fast path, structural
escaping, the per-character loop, and finally the replacement of every
newline by a paragraph-break control word plus a newline. -/
def _escape_text (t : List Char) : List Char :=
  if t = [] then []
  else pyReplaceChar '\n' ['\\', 'p', 'a', 'r', '\n']
    (((_escape t).map escapeChar).flatten)

/-- Per-character view of the structural escaping: what _escape does to one
character. -/
def structEsc (c : Char) : List Char :=
  if c = '\\' then ['\\', '\\']
  else if c = '\x7b' then ['\\', '\x7b']
  else if c = '\x7d' then ['\\', '\x7d']
  else [c]

/-- Reversal of the structural escaping, following the wording of the spec:
each escaped pair for backslash and the two braces is mapped back to its
single character; everything else is copied. -/
def unescapeStruct : List Char → List Char
  | [] => []
  | [c] => [c]
  | c :: d :: rest =>
    if c = '\\' ∧ (d = '\\' ∨ d = '\x7b' ∨ d = '\x7d') then d :: unescapeStruct rest
    else c :: unescapeStruct (d :: rest)

/-- Embedding of the RtfFormatter constructor: the fields stored by __init__.
Integer options are modelled by the configured integer value; __init__ stores
the absolute value of linenostart and linenostep. -/
structure RtfFormatter where
  fontface : String
  fontsize : Int
  linenos : Bool
  lineno_fontsize : Int
  linenostart : Int
  linenostep : Int
deriving DecidableEq

/-- Embedding of RtfFormatter.__init__ for integer-valued options. -/
def mkRtfFormatter (fontface : String) (fontsize : Int) (linenos : Bool)
    (lineno_fontsize : Int) (linenostart : Int) (linenostep : Int) : RtfFormatter :=
  ⟨fontface, fontsize, linenos, lineno_fontsize, |linenostart|, |linenostep|⟩

/-- Python str.rjust with the default space fill character. -/
def rjust (s : String) (w : Nat) : String :=
  if w ≤ s.length then s else String.mk (List.replicate (w - s.length) ' ') ++ s

/-- Condition under which format_unencoded prints a numeral rather than
blank padding for the current line, read off rtf.py line 185. -/
def printsNumeral (linenostep lineno : Int) : Bool :=
  (lineno - linenostep) % linenostep == 0

/-- Text of the line-number slot written for one line, read off rtf.py lines
185 to 188: a right-justified numeral, or blank padding of the same width. -/
def linenoStr (linenostep : Int) (w : Nat) (lineno : Int) : String :=
  if printsNumeral linenostep lineno then rjust (toString lineno) w else rjust "" w

/-- Token categories as far as the pre-pass distinguishes them: the literal
doc-string type against every other type. -/
inductive TType where
  | Doc : TType
  | NonDoc : Nat → TType
deriving DecidableEq

/-- A token of the stream: a category and a text value. -/
structure Tok where
  ttype : TType
  value : List Char
deriving DecidableEq

/-- Python value.split on the single newline character. -/
def splitNl : List Char → List (List Char)
  | [] => [[]]
  | c :: rest =>
    if c = '\n' then [] :: splitNl rest
    else
      match splitNl rest with
      | [] => [[c]]
      | l :: ls => (c :: l) :: ls

/-- Fragments a doc-string token is split into by the pre-pass, rtf.py lines
150 to 153: one fragment per split line, each with a newline re-appended. -/
def docFragments (v : List Char) : List (List Char) :=
  (splitNl v).map (fun l => l ++ ['\n'])

/-- Python value.endswith for a single newline character. -/
def endsNl (v : List Char) : Bool := decide (v.getLast? = some '\n')

/-- Pre-pass treatment of one token, rtf.py lines 146 to 159: a doc-string
token is split per line and contributes one line per fragment, a token whose
text is exactly one newline contributes one line, all others contribute
none; every token is kept, in order. -/
def prepassTok (t : Tok) : Nat × List Tok :=
  if t.ttype = TType.Doc then
    ((docFragments t.value).length, (docFragments t.value).map (fun l => ⟨t.ttype, l⟩))
  else if t.value = ['\n'] then (1, [t])
  else (0, [t])

/-- The whole pre-pass: the total line count and the materialized tokens. -/
def prepass : List Tok → Nat × List Tok
  | [] => (0, [])
  | t :: rest => ((prepassTok t).1 + (prepass rest).1, (prepassTok t).2 ++ (prepass rest).2)

/-- Number of line-number slots the render loop writes over a token list:
one slot is written for a token exactly when the output_lineno flag is set,
and the flag is set again after every token whose text ends in a newline,
rtf.py lines 181 to 196. -/
def slotCount (out : Bool) : List Tok → Nat
  | [] => 0
  | t :: ts => (if out then 1 else 0) + slotCount (endsNl t.value) ts

/-- Value of the output_lineno flag after the render loop has consumed the
given tokens, starting from the given flag value. -/
def outAfter (out : Bool) : List Tok → Bool
  | [] => out
  | t :: ts => outAfter (endsNl t.value) ts

/-- A token that keeps the pre-pass count and the renderer slots in step: a
doc-string token, a token not ending in a newline, or the lone newline
token. -/
def goodTok (t : Tok) : Bool :=
  decide (t.ttype = TType.Doc) || !endsNl t.value || decide (t.value = ['\n'])

/-- The last token of the stream closes its line: it is a doc-string token
or its text ends in a newline. -/
def lastOk (ts : List Tok) : Bool :=
  match ts.getLast? with
  | none => false
  | some t => decide (t.ttype = TType.Doc) || endsNl t.value

/-- Resolved style record for a token category as consumed by
format_unencoded; color fields use the empty string for unset, matching the
falsy empty values of the style dictionaries. -/
structure StyleRec where
  color : String
  bgcolor : String
  border : String
  bold : Bool
  italic : Bool
  underline : Bool
deriving DecidableEq

/-- Lookup in the color mapping; format_unencoded only ever inserts fresh
keys, so an association list searched from the front models the dict. -/
def lookupColor (m : List (String × Nat)) (c : String) : Option Nat :=
  (m.find? (fun p => p.1 == c)).map (fun p => p.2)

/-- One step of the color-table loop body, rtf.py lines 127 to 134: a
non-empty color not yet in the mapping is appended with the current offset,
which is then incremented; the mapping list doubles as the sequence of
emitted color-table entries, in assignment order. -/
def addColor (st : List (String × Nat) × Nat) (color : String) : List (String × Nat) × Nat :=
  if color ≠ "" ∧ lookupColor st.1 color = none then (st.1 ++ [(color, st.2)], st.2 + 1)
  else st

/-- Inspection order of the three color fields of one style, rtf.py line
126: foreground, background, then border. -/
def addStyleColors (st : List (String × Nat) × Nat) (s : StyleRec) : List (String × Nat) × Nat :=
  addColor (addColor (addColor st s.color) s.bgcolor) s.border

/-- The whole color-table loop of rtf.py lines 122 to 134, starting from the
empty mapping and offset 1, scanning styles in enumeration order. -/
def buildColorTable (styles : List StyleRec) : List (String × Nat) × Nat :=
  styles.foldl addStyleColors ([], 1)

/-- The ordered list of color values the builder inspects, unset values
skipped, as the spec words it. -/
def collectColors (styles : List StyleRec) : List String :=
  ((styles.map (fun s => [s.color, s.bgcolor, s.border])).flatten).filter
    (fun c => decide (c ≠ ""))

/-- First-occurrence order of a list, with a seen accumulator. -/
def firstOccsAux (seen : List String) : List String → List String
  | [] => []
  | c :: rest =>
    if c ∈ seen then firstOccsAux seen rest else c :: firstOccsAux (c :: seen) rest

/-- Deduplicated subsequence of first occurrences of a color list. -/
def firstOccs (cs : List String) : List String := firstOccsAux [] cs

/-- Pairs each element with a sequential index starting at k. -/
def indexFrom (k : Nat) : List String → List (String × Nat)
  | [] => []
  | c :: rest => (c, k) :: indexFrom (k + 1) rest

/-- One conditional color piece of the style prefix: skipped when the field
is unset, otherwise a single control word with the looked-up index; a failed
lookup is the UnknownColorReference contract violation, modelled as none. -/
def colorPiece (m : List (String × Nat)) (c : String) (w : String) : Option (List String) :=
  if c = "" then some [] else (lookupColor m c).map (fun i => [w ++ toString i])

/-- Style-prefix buffer built for one token by format_unencoded lines 198 to
211, in source order: background color, foreground color, bold, italic,
underline, border. -/
def tokenBuf (m : List (String × Nat)) (s : StyleRec) : Option (List String) := do
  let b1 ← colorPiece m s.bgcolor "\\cb"
  let b2 ← colorPiece m s.color "\\cf"
  let b3 : List String := if s.bold then ["\\b"] else []
  let b4 : List String := if s.italic then ["\\i"] else []
  let b5 : List String := if s.underline then ["\\ul"] else []
  let b6 ← colorPiece m s.border "\\chbrdr\\chcfpat"
  pure (b1 ++ b2 ++ b3 ++ b4 ++ b5 ++ b6)

/-- Output written for one token by format_unencoded lines 211 to 218: the
escaped text is wrapped in a brace group prefixed by the joined control
words exactly when that prefix is non-empty. -/
def renderToken (m : List (String × Nat)) (s : StyleRec) (value : List Char) : Option String :=
  (tokenBuf m s).map (fun buf =>
    if String.join buf ≠ "" then
      "\x7b" ++ String.join buf ++ " " ++ String.mk (_escape_text value) ++ "\x7d"
    else String.mk (_escape_text value))

/-- Control words of the prefix as the spec words them: in the fixed order
background color, foreground color, bold, italic, underline, border, each
present exactly when the corresponding field is set. -/
def specControlWords (m : List (String × Nat)) (s : StyleRec) : List String :=
  (if s.bgcolor ≠ "" then ["\\cb" ++ toString ((lookupColor m s.bgcolor).getD 0)] else []) ++
  (if s.color ≠ "" then ["\\cf" ++ toString ((lookupColor m s.color).getD 0)] else []) ++
  (if s.bold then ["\\b"] else []) ++
  (if s.italic then ["\\i"] else []) ++
  (if s.underline then ["\\ul"] else []) ++
  (if s.border ≠ ""
    then ["\\chbrdr\\chcfpat" ++ toString ((lookupColor m s.border).getD 0)] else [])

/-- A style with at least one set field. -/
def anyStyleSet (s : StyleRec) : Prop :=
  s.bgcolor ≠ "" ∨ s.color ≠ "" ∨ s.bold = true ∨ s.italic = true ∨ s.underline = true
    ∨ s.border ≠ ""

instance (s : StyleRec) : Decidable (anyStyleSet s) := by
  unfold anyStyleSet
  infer_instance

theorem pyReplaceChar_append (pat : Char) (rep : List Char) (a b : List Char) :
    pyReplaceChar pat rep (a ++ b) = pyReplaceChar pat rep a ++ pyReplaceChar pat rep b := by
  induction a with
  | nil => simp [pyReplaceChar]
  | cons c a ih => simp [pyReplaceChar, ih]

theorem pyReplaceChar_not_mem (pat : Char) (rep : List Char) (l : List Char)
    (h : pat ∉ l) : pyReplaceChar pat rep l = l := by
  induction l with
  | nil => rfl
  | cons c l ih =>
    simp only [List.mem_cons, not_or] at h
    simp [pyReplaceChar, ih h.2, if_neg (Ne.symm h.1)]

theorem mem_pyReplaceChar (pat : Char) (rep : List Char) (l : List Char) (c : Char)
    (h : c ∈ pyReplaceChar pat rep l) : c ∈ rep ∨ c ∈ l := by
  induction l with
  | nil => simp [pyReplaceChar] at h
  | cons d l ih =>
    simp only [pyReplaceChar, List.mem_append] at h
    rcases h with h | h
    · split at h
      · exact Or.inl h
      · simp at h; simp [h]
    · rcases ih h with h | h
      · exact Or.inl h
      · simp [h]

theorem escape_cons (c : Char) (t : List Char) :
    _escape (c :: t) = structEsc c ++ _escape t := by
  unfold _escape
  rw [show pyReplaceChar '\\' ['\\', '\\'] (c :: t)
      = (if c = '\\' then ['\\', '\\'] else [c]) ++ pyReplaceChar '\\' ['\\', '\\'] t from rfl,
    pyReplaceChar_append, pyReplaceChar_append]
  by_cases h1 : c = '\\'
  · simp [h1, structEsc, pyReplaceChar]
  · by_cases h2 : c = '\x7b'
    · simp [h1, h2, structEsc, pyReplaceChar]
    · by_cases h3 : c = '\x7d'
      · simp [h1, h2, h3, structEsc, pyReplaceChar]
      · simp [h1, h2, h3, structEsc, pyReplaceChar]

theorem escape_eq_join (t : List Char) : _escape t = (t.map structEsc).flatten := by
  induction t with
  | nil => rfl
  | cons c t ih => rw [escape_cons, ih]; simp

theorem mem_escape (t : List Char) (c : Char) (h : c ∈ _escape t) :
    c ∈ t ∨ c = '\\' := by
  rw [escape_eq_join] at h
  rcases List.mem_flatten.mp h with ⟨l, hl, hcl⟩
  rcases List.mem_map.mp hl with ⟨d, hd, rfl⟩
  unfold structEsc at hcl
  by_cases h1 : d = '\\'
  · rw [if_pos h1] at hcl
    simp at hcl
    exact Or.inr hcl
  · rw [if_neg h1] at hcl
    by_cases h2 : d = '\x7b'
    · rw [if_pos h2] at hcl
      rcases List.mem_pair.mp hcl with rfl | rfl
      · exact Or.inr rfl
      · exact Or.inl (h2 ▸ hd)
    · rw [if_neg h2] at hcl
      by_cases h3 : d = '\x7d'
      · rw [if_pos h3] at hcl
        rcases List.mem_pair.mp hcl with rfl | rfl
        · exact Or.inr rfl
        · exact Or.inl (h3 ▸ hd)
      · rw [if_neg h3] at hcl
        simp at hcl
        subst hcl
        exact Or.inl hd

theorem digitChar_bounds (d : Nat) (h : d < 10) :
    48 ≤ (digitChar d).toNat ∧ (digitChar d).toNat ≤ 57 := by
  interval_cases d <;> decide

theorem natToDecAux_mem (n : Nat) :
    ∀ (acc : List Char) (c : Char), c ∈ natToDecAux n acc →
      c ∈ acc ∨ (48 ≤ c.toNat ∧ c.toNat ≤ 57) := by
  induction n using Nat.strong_induction_on with
  | _ n ih =>
    intro acc c hc
    rw [natToDecAux] at hc
    split at hc
    · exact Or.inl hc
    · rename_i hn
      rcases ih (n / 10) (Nat.div_lt_self (Nat.pos_of_ne_zero hn) (by omega)) _ c hc with h | h
      · rcases List.mem_cons.mp h with rfl | h
        · exact Or.inr (digitChar_bounds _ (Nat.mod_lt _ (by omega)))
        · exact Or.inl h
      · exact Or.inr h

theorem natToDec_mem (n : Nat) (c : Char) (h : c ∈ natToDec n) :
    48 ≤ c.toNat ∧ c.toNat ≤ 57 := by
  unfold natToDec at h
  split at h
  · simp at h; subst h; decide
  · rcases natToDecAux_mem n [] c h with h | h
    · simp at h
    · exact h

theorem uEscape_ascii (n : Nat) (c : Char) (h : c ∈ uEscape n) : c.toNat < 128 := by
  unfold uEscape at h
  rcases List.mem_cons.mp h with rfl | h
  · decide
  rcases List.mem_cons.mp h with rfl | h
  · decide
  rcases List.mem_cons.mp h with rfl | h
  · decide
  rcases List.mem_append.mp h with h | h
  · have := natToDec_mem n c h; omega
  · simp at h; subst h; decide

theorem uEscape_no_nl (n : Nat) : '\n' ∉ uEscape n := by
  intro h
  unfold uEscape at h
  rcases List.mem_cons.mp h with h | h
  · exact absurd h (by decide)
  rcases List.mem_cons.mp h with h | h
  · exact absurd h (by decide)
  rcases List.mem_cons.mp h with h | h
  · exact absurd h (by decide)
  rcases List.mem_append.mp h with h | h
  · have hb := natToDec_mem _ _ h
    have h10 : ('\n').toNat = 10 := by decide
    omega
  · simp at h

theorem escapeChar_ascii (d c : Char) (h : c ∈ escapeChar d) : c.toNat < 128 := by
  unfold escapeChar at h
  split at h
  · simp at h; subst h; assumption
  · split at h
    · exact uEscape_ascii _ _ h
    · rcases List.mem_append.mp h with h | h
      · exact uEscape_ascii _ _ h
      · exact uEscape_ascii _ _ h

theorem char_toNat_lt_valid (c : Char) : c.toNat < 1114112 := by
  rcases c.valid with h | h
  · exact Nat.lt_trans h (by decide)
  · exact h.2

theorem escapeChar_low (c : Char) (h : c.toNat < 128) : escapeChar c = [c] := by
  simp [escapeChar, h]

theorem escapeChar_mid (c : Char) (h1 : 128 ≤ c.toNat) (h2 : c.toNat < 65536) :
    escapeChar c = uEscape c.toNat := by
  have hA : ¬ c.toNat < 128 := by omega
  simp [escapeChar, hA, h2]

theorem escapeChar_high (c : Char) (h1 : 65536 ≤ c.toNat) :
    escapeChar c = uEscape (surrogatepair c.toNat).1 ++ uEscape (surrogatepair c.toNat).2 := by
  have hA : ¬ c.toNat < 128 := by omega
  have hB : ¬ c.toNat < 65536 := by omega
  simp [escapeChar, hA, hB]

theorem flatten_map_escapeChar_low (l : List Char) (h : ∀ c ∈ l, c.toNat < 128) :
    (l.map escapeChar).flatten = l := by
  induction l with
  | nil => rfl
  | cons c l ih =>
    simp only [List.map_cons, List.flatten_cons]
    rw [escapeChar_low c (h c (by simp)), ih (fun d hd => h d (by simp [hd]))]
    rfl

theorem escape_single_nonstruct (c : Char) (h1 : c ≠ '\\') (h2 : c ≠ '\x7b') (h3 : c ≠ '\x7d') :
    _escape [c] = [c] := by
  rw [escape_cons]
  rw [show _escape [] = [] from rfl]
  simp [structEsc, h1, h2, h3]

theorem escape_text_single_mid (c : Char) (h1 : 128 ≤ c.toNat) (h2 : c.toNat < 65536) :
    _escape_text [c] = uEscape c.toNat := by
  have hb : c ≠ '\\' := fun hh => by subst hh; exact absurd h1 (by decide)
  have hob : c ≠ '\x7b' := fun hh => by subst hh; exact absurd h1 (by decide)
  have hcb : c ≠ '\x7d' := fun hh => by subst hh; exact absurd h1 (by decide)
  unfold _escape_text
  rw [if_neg (by simp), escape_single_nonstruct c hb hob hcb]
  simp only [List.map_cons, List.map_nil, List.flatten_cons, List.flatten_nil, List.append_nil]
  rw [escapeChar_mid c h1 h2]
  exact pyReplaceChar_not_mem _ _ _ (uEscape_no_nl _)

theorem escape_text_single_high (c : Char) (h1 : 65536 ≤ c.toNat) :
    _escape_text [c] = uEscape (surrogatepair c.toNat).1 ++ uEscape (surrogatepair c.toNat).2 := by
  have hb : c ≠ '\\' := fun hh => by subst hh; exact absurd h1 (by decide)
  have hob : c ≠ '\x7b' := fun hh => by subst hh; exact absurd h1 (by decide)
  have hcb : c ≠ '\x7d' := fun hh => by subst hh; exact absurd h1 (by decide)
  unfold _escape_text
  rw [if_neg (by simp), escape_single_nonstruct c hb hob hcb]
  simp only [List.map_cons, List.map_nil, List.flatten_cons, List.flatten_nil, List.append_nil]
  rw [escapeChar_high c h1]
  refine pyReplaceChar_not_mem _ _ _ ?_
  intro hmem
  rcases List.mem_append.mp hmem with hm | hm
  · exact uEscape_no_nl _ hm
  · exact uEscape_no_nl _ hm

/-- C4: for every input code point at or above 65536, the text escaper emits
exactly the two brace-wrapped numeric escape groups of the standard UTF-16
surrogate-pair decomposition, high surrogate first: the two emitted values lie
in the high- and low-surrogate ranges and decode back to the code point. -/
theorem escape_text_surrogate_pair (c : Char) (h : 65536 ≤ c.toNat) :
    _escape_text [c]
        = uEscape (surrogatepair c.toNat).1 ++ uEscape (surrogatepair c.toNat).2 ∧
      55296 ≤ (surrogatepair c.toNat).1 ∧ (surrogatepair c.toNat).1 < 56320 ∧
      56320 ≤ (surrogatepair c.toNat).2 ∧ (surrogatepair c.toNat).2 < 57344 ∧
      ((surrogatepair c.toNat).1 - 55296) * 1024 + ((surrogatepair c.toNat).2 - 56320) + 65536
        = c.toNat := by
  have hv := char_toNat_lt_valid c
  refine ⟨escape_text_single_high c h, ?_, ?_, ?_, ?_, ?_⟩ <;> simp [surrogatepair] <;> omega

/-- Witness for C4 at U+1F600. -/
theorem escape_text_surrogate_pair_witness :
    65536 ≤ Char.toNat '😀' ∧
      _escape_text ['😀']
        = uEscape (surrogatepair (Char.toNat '😀')).1
            ++ uEscape (surrogatepair (Char.toNat '😀')).2 :=
  ⟨by decide, (escape_text_surrogate_pair '😀' (by decide)).1⟩

theorem unescape_cons_ne (c : Char) (xs : List Char) (h : c ≠ '\\') :
    unescapeStruct (c :: xs) = c :: unescapeStruct xs := by
  cases xs with
  | nil => rfl
  | cons d rest =>
    rw [show unescapeStruct (c :: d :: rest)
        = if c = '\\' ∧ (d = '\\' ∨ d = '\x7b' ∨ d = '\x7d') then d :: unescapeStruct rest
          else c :: unescapeStruct (d :: rest) from rfl]
    rw [if_neg (fun hc => h hc.1)]

theorem unescape_esc_pair (x : Char) (rest : List Char)
    (h : x = '\\' ∨ x = '\x7b' ∨ x = '\x7d') :
    unescapeStruct ('\\' :: x :: rest) = x :: unescapeStruct rest := by
  rw [show unescapeStruct ('\\' :: x :: rest)
      = if ('\\' : Char) = '\\' ∧ (x = '\\' ∨ x = '\x7b' ∨ x = '\x7d')
        then x :: unescapeStruct rest
        else '\\' :: unescapeStruct (x :: rest) from rfl]
  rw [if_pos ⟨rfl, h⟩]

theorem unescape_structEsc_flatten (t : List Char) :
    unescapeStruct ((t.map structEsc).flatten) = t := by
  induction t with
  | nil => rfl
  | cons c t ih =>
    simp only [List.map_cons, List.flatten_cons]
    by_cases h1 : c = '\\'
    · subst h1
      rw [show structEsc '\\' = ['\\', '\\'] from by decide]
      show unescapeStruct ('\\' :: '\\' :: (t.map structEsc).flatten) = '\\' :: t
      rw [unescape_esc_pair _ _ (Or.inl rfl), ih]
    · by_cases h2 : c = '\x7b'
      · subst h2
        rw [show structEsc '\x7b' = ['\\', '\x7b'] from by decide]
        show unescapeStruct ('\\' :: '\x7b' :: (t.map structEsc).flatten) = '\x7b' :: t
        rw [unescape_esc_pair _ _ (Or.inr (Or.inl rfl)), ih]
      · by_cases h3 : c = '\x7d'
        · subst h3
          rw [show structEsc '\x7d' = ['\\', '\x7d'] from by decide]
          show unescapeStruct ('\\' :: '\x7d' :: (t.map structEsc).flatten) = '\x7d' :: t
          rw [unescape_esc_pair _ _ (Or.inr (Or.inr rfl)), ih]
        · rw [show structEsc c = [c] from by simp [structEsc, h1, h2, h3]]
          show unescapeStruct (c :: (t.map structEsc).flatten) = c :: t
          rw [unescape_cons_ne c _ h1, ih]

/-- C5: for text containing only printable ASCII characters, applying the
text escaper and then reversing the structural escaping of backslash and the
two braces yields back the original text. -/
theorem escape_roundtrip (t : List Char)
    (h : ∀ c ∈ t, 32 ≤ c.toNat ∧ c.toNat ≤ 126) :
    unescapeStruct (_escape_text t) = t := by
  rcases eq_or_ne t [] with rfl | hne
  · rfl
  · unfold _escape_text
    rw [if_neg hne]
    have hesc : ∀ c ∈ _escape t, c.toNat < 128 := by
      intro c hc
      rcases mem_escape t c hc with hm | rfl
      · have := h c hm; omega
      · decide
    have hnl : '\n' ∉ _escape t := by
      intro hmem
      rcases mem_escape t _ hmem with hm | hb
      · have := h _ hm
        have h10 : ('\n').toNat = 10 := by decide
        omega
      · exact absurd hb (by decide)
    rw [flatten_map_escapeChar_low _ hesc, pyReplaceChar_not_mem _ _ _ hnl, escape_eq_join]
    exact unescape_structEsc_flatten t

/-- Witness for C5 on a text containing all three structural characters. -/
theorem escape_roundtrip_witness :
    unescapeStruct (_escape_text ['a', '\\', '\x7b', 'x', '\x7d'])
      = ['a', '\\', '\x7b', 'x', '\x7d'] :=
  escape_roundtrip ['a', '\\', '\x7b', 'x', '\x7d'] (by decide)

/-- C6: every character of the text escaper output is ASCII; a code point in
[128, 65536) becomes a single brace-wrapped numeric escape group naming its
decimal value, and an ASCII code point that is not one of the structurally
escaped characters and not a newline passes through as the literal character. -/
theorem escape_text_ascii_safe :
    (∀ (t : List Char), ∀ c ∈ _escape_text t, c.toNat < 128) ∧
    (∀ c : Char, 128 ≤ c.toNat → c.toNat < 65536 → _escape_text [c] = uEscape c.toNat) ∧
    (∀ c : Char, c.toNat < 128 → c ≠ '\\' → c ≠ '\x7b' → c ≠ '\x7d' → c ≠ '\n' →
      _escape_text [c] = [c]) := by
  refine ⟨?_, escape_text_single_mid, ?_⟩
  · intro t c hc
    unfold _escape_text at hc
    split at hc
    · simp at hc
    · rcases mem_pyReplaceChar _ _ _ _ hc with hm | hm
      · simp at hm
        rcases hm with rfl | rfl | rfl | rfl | rfl <;> decide
      · rcases List.mem_flatten.mp hm with ⟨l, hl, hcl⟩
        rcases List.mem_map.mp hl with ⟨d, hd, rfl⟩
        exact escapeChar_ascii d c hcl
  · intro c h hb h1 h2 hn
    unfold _escape_text
    rw [if_neg (by simp), escape_single_nonstruct c hb h1 h2]
    simp only [List.map_cons, List.map_nil, List.flatten_cons, List.flatten_nil, List.append_nil]
    rw [escapeChar_low c h]
    refine pyReplaceChar_not_mem _ _ _ ?_
    intro hmem
    rw [List.mem_singleton] at hmem
    exact hn hmem.symm

/-- Witness for C6 at U+00E9 and at a plain ASCII letter. -/
theorem escape_text_ascii_safe_witness :
    _escape_text ['é'] = uEscape (Char.toNat 'é') ∧ _escape_text ['a'] = ['a'] :=
  ⟨escape_text_ascii_safe.2.1 'é' (by decide) (by decide),
   escape_text_ascii_safe.2.2 'a' (by decide) (by decide) (by decide) (by decide) (by decide)⟩

/-- C10: a negative configured linenostart or linenostep constructs exactly
the same formatter record as its positive counterpart, because __init__
stores the absolute values; all rendering reads only the stored fields. -/
theorem mkRtfFormatter_abs (fontface : String) (fontsize : Int) (linenos : Bool)
    (lineno_fontsize : Int) (linenostart linenostep : Int) :
    mkRtfFormatter fontface fontsize linenos lineno_fontsize (-linenostart) (-linenostep)
      = mkRtfFormatter fontface fontsize linenos lineno_fontsize linenostart linenostep ∧
    (mkRtfFormatter fontface fontsize linenos lineno_fontsize linenostart
        linenostep).linenostart = |linenostart| ∧
    (mkRtfFormatter fontface fontsize linenos lineno_fontsize linenostart
        linenostep).linenostep = |linenostep| := by
  refine ⟨?_, rfl, rfl⟩
  simp [mkRtfFormatter, abs_neg]

/-- Counterexample to C1: with linenostep = 5 and linenostart = 1, line 1
prints blank padding and line 6 does too; the lines that actually print a
numeral are the multiples of 5. -/
theorem lineno_step_counterexample :
    printsNumeral 5 1 = false ∧ linenoStr 5 1 1 = " " ∧ printsNumeral 5 6 = false ∧
      printsNumeral 5 5 = true ∧ linenoStr 5 1 5 = "5" := by
  refine ⟨by decide, ?_, by decide, by decide, ?_⟩
  · rfl
  · rfl

theorem printsNumeral_iff (linenostep lineno : Int) (_h : 0 < linenostep) :
    printsNumeral linenostep lineno = true ↔ lineno % linenostep = 0 := by
  unfold printsNumeral
  rw [beq_iff_eq, Int.sub_emod, Int.emod_self, sub_zero, Int.emod_emod_of_dvd _ dvd_rfl]

/-- C1 amended: for a positive step, exactly the lines whose line number is a
multiple of the step print the right-justified numeral, every other line
prints blank padding of the fixed column width, and with step 1 every line
prints a numeral. -/
theorem lineno_step_amended (linenostep lineno : Int) (w : Nat) (h : 0 < linenostep) :
    (printsNumeral linenostep lineno = true ↔ lineno % linenostep = 0) ∧
    (lineno % linenostep = 0 → linenoStr linenostep w lineno = rjust (toString lineno) w) ∧
    (lineno % linenostep ≠ 0 → linenoStr linenostep w lineno = rjust "" w) ∧
    (rjust "" w).length = w ∧
    printsNumeral 1 lineno = true := by
  refine ⟨printsNumeral_iff _ _ h, ?_, ?_, ?_, ?_⟩
  · intro hm
    unfold linenoStr
    rw [if_pos ((printsNumeral_iff _ _ h).mpr hm)]
  · intro hm
    unfold linenoStr
    rw [if_neg]
    intro hp
    exact hm ((printsNumeral_iff _ _ h).mp hp)
  · unfold rjust
    rcases Nat.eq_zero_or_pos w with rfl | hw
    · rfl
    · rw [if_neg (by simp [String.length]; omega)]
      simp
  · rw [printsNumeral_iff _ _ (by omega)]
    exact Int.emod_one lineno

/-- Witness for the amended C1 at step 5, line 10, width 2. -/
theorem lineno_step_amended_witness :
    (printsNumeral 5 10 = true ↔ (10 : Int) % 5 = 0) ∧
      linenoStr 5 2 10 = rjust (toString (10 : Int)) 2 :=
  ⟨(lineno_step_amended 5 10 2 (by decide)).1,
   (lineno_step_amended 5 10 2 (by decide)).2.1 (by decide)⟩

/-- Counterexample to C3: a doc-string token with no embedded newline is not
left unchanged, and the concatenation of its fragments differs from the
original text: the split appends one extra newline. -/
theorem docFragments_counterexample :
    docFragments ['a'] = [['a', '\n']] ∧ (docFragments ['a']).flatten ≠ ['a'] := by
  decide

theorem splitNl_ne_nil (v : List Char) : splitNl v ≠ [] := by
  cases v with
  | nil => simp [splitNl]
  | cons c rest =>
    unfold splitNl
    split
    · simp
    · split <;> simp

theorem docFragments_flatten (v : List Char) :
    (docFragments v).flatten = v ++ ['\n'] := by
  induction v with
  | nil => rfl
  | cons c rest ih =>
    unfold docFragments at ih ⊢
    unfold splitNl
    by_cases hc : c = '\n'
    · subst hc
      rw [if_pos rfl]
      simp only [List.map_cons, List.flatten_cons]
      rw [ih]
      simp
    · rw [if_neg hc]
      cases hs : splitNl rest with
      | nil => exact absurd hs (splitNl_ne_nil rest)
      | cons l ls =>
        rw [hs] at ih
        simp only [List.map_cons, List.flatten_cons] at ih ⊢
        simp only [List.cons_append, List.append_assoc] at ih ⊢
        rw [ih]

theorem splitNl_no_nl (v : List Char) (h : '\n' ∉ v) : splitNl v = [v] := by
  induction v with
  | nil => rfl
  | cons c rest ih =>
    simp only [List.mem_cons, not_or] at h
    unfold splitNl
    rw [if_neg (fun hh => h.1 hh.symm), ih h.2]

/-- C3 amended: the pre-pass split of a doc-string token preserves character
content except for appending exactly one newline: the concatenation of the
fragments equals the original text plus one trailing newline, and a token
with no embedded newline becomes a single fragment, the original text plus a
trailing newline. -/
theorem docFragments_amended (v : List Char) :
    (docFragments v).flatten = v ++ ['\n'] ∧
      ('\n' ∉ v → docFragments v = [v ++ ['\n']]) := by
  refine ⟨docFragments_flatten v, fun h => ?_⟩
  unfold docFragments
  rw [splitNl_no_nl v h]
  rfl

/-- Witness for the amended C3 on a two-character doc string. -/
theorem docFragments_amended_witness :
    (docFragments ['a', 'b']).flatten = ['a', 'b'] ++ ['\n'] ∧
      docFragments ['a', 'b'] = [['a', 'b'] ++ ['\n']] :=
  ⟨(docFragments_amended ['a', 'b']).1, (docFragments_amended ['a', 'b']).2 (by decide)⟩

/-- Counterexample to C2: a single token whose text does not end in a newline
receives one line-number slot from the renderer while the pre-pass counts
zero line boundaries for it. -/
theorem slotCount_counterexample :
    slotCount true (prepass [⟨TType.NonDoc 0, ['x']⟩]).2 = 1 ∧
      (prepass [⟨TType.NonDoc 0, ['x']⟩]).1 = 0 := by
  decide

theorem endsNl_append_nl (l : List Char) : endsNl (l ++ ['\n']) = true := by
  simp [endsNl, List.getLast?_concat]

theorem docFragments_endsNl (v l : List Char) (h : l ∈ docFragments v) :
    endsNl l = true := by
  rcases List.mem_map.mp h with ⟨x, _, rfl⟩
  exact endsNl_append_nl x

theorem docFragments_ne_nil (v : List Char) : docFragments v ≠ [] := by
  unfold docFragments
  intro hc
  exact splitNl_ne_nil v (List.map_eq_nil_iff.mp hc)

theorem slotCount_outAfter (ps : List Tok) : ∀ out : Bool,
    slotCount out ps + (outAfter out ps).toNat
      = out.toNat + (ps.filter (fun t => endsNl t.value)).length := by
  induction ps with
  | nil => intro out; simp [slotCount, outAfter]
  | cons t ps ih =>
    intro out
    have h := ih (endsNl t.value)
    simp only [slotCount, outAfter, List.filter_cons]
    cases he : endsNl t.value <;> rw [he] at h <;> cases out <;> simp [he] at h ⊢ <;> omega

theorem prepassTok_count (t : Tok) (h : goodTok t = true) :
    (prepassTok t).1 = ((prepassTok t).2.filter (fun tk => endsNl tk.value)).length := by
  unfold prepassTok
  by_cases hd : t.ttype = TType.Doc
  · rw [if_pos hd]
    have hf : ((docFragments t.value).map (fun l => (⟨t.ttype, l⟩ : Tok))).filter
        (fun tk => endsNl tk.value) = (docFragments t.value).map (fun l => ⟨t.ttype, l⟩) := by
      apply List.filter_eq_self.mpr
      intro tk htk
      rcases List.mem_map.mp htk with ⟨l, hl, rfl⟩
      simpa using docFragments_endsNl _ _ hl
    simp [hf]
  · rw [if_neg hd]
    by_cases hv : t.value = ['\n']
    · rw [if_pos hv]
      simp [List.filter_cons, endsNl, hv]
    · rw [if_neg hv]
      have hne : endsNl t.value = false := by
        simp [goodTok, hd, hv] at h
        exact h
      simp [List.filter_cons, hne]

theorem prepass_count (ts : List Tok) (h : ∀ t ∈ ts, goodTok t = true) :
    (prepass ts).1 = ((prepass ts).2.filter (fun tk => endsNl tk.value)).length := by
  induction ts with
  | nil => rfl
  | cons t ts ih =>
    simp only [prepass, List.filter_append, List.length_append]
    rw [prepassTok_count t (h t (by simp)), ih (fun x hx => h x (by simp [hx]))]

theorem outAfter_append (a b : List Tok) (out : Bool) :
    outAfter out (a ++ b) = outAfter (outAfter out a) b := by
  induction a generalizing out with
  | nil => rfl
  | cons t a ih => simp [outAfter, ih]

theorem outAfter_all_nl (ps : List Tok) (h : ∀ t ∈ ps, endsNl t.value = true) :
    ∀ out, ps ≠ [] → outAfter out ps = true := by
  induction ps with
  | nil => intro out hne; exact absurd rfl hne
  | cons t ps ih =>
    intro out _
    cases hps : ps with
    | nil =>
      subst hps
      rw [show outAfter out [t] = endsNl t.value from rfl]
      exact h t (by simp)
    | cons u ps2 =>
      subst hps
      rw [show outAfter out (t :: u :: ps2) = outAfter (endsNl t.value) (u :: ps2) from rfl]
      exact ih (fun x hx => h x (by simp [hx])) _ (by simp)

theorem lastOk_cons_cons (t u : Tok) (ts : List Tok) :
    lastOk (t :: u :: ts) = lastOk (u :: ts) := by
  simp [lastOk, List.getLast?_cons_cons]

theorem outAfter_prepass (ts : List Tok) (h : lastOk ts = true) :
    ∀ out, outAfter out (prepass ts).2 = true := by
  induction ts with
  | nil => simp [lastOk] at h
  | cons t ts ih =>
    intro out
    cases hts : ts with
    | nil =>
      subst hts
      simp only [prepass, List.append_nil]
      have hlast : (decide (t.ttype = TType.Doc) || endsNl t.value) = true := by
        simpa [lastOk] using h
      by_cases hd : t.ttype = TType.Doc
      · rw [show prepassTok t = ((docFragments t.value).length,
            (docFragments t.value).map (fun l => ⟨t.ttype, l⟩)) from by simp [prepassTok, hd]]
        apply outAfter_all_nl
        · intro x hx
          rcases List.mem_map.mp hx with ⟨l, hl, rfl⟩
          simpa using docFragments_endsNl _ _ hl
        · simpa using docFragments_ne_nil t.value
      · have he : endsNl t.value = true := by
          simp [hd] at hlast
          exact hlast
        unfold prepassTok
        rw [if_neg hd]
        by_cases hv : t.value = ['\n']
        · rw [if_pos hv]
          simp [outAfter, he]
        · rw [if_neg hv]
          simp [outAfter, he]
    | cons u ts2 =>
      subst hts
      simp only [prepass]
      rw [outAfter_append]
      exact ih (by rw [lastOk_cons_cons] at h; exact h) _

/-- C2 amended: with line numbering on, the number of line-number slots the
renderer emits equals the line-boundary count of the pre-pass, provided the
stream is nonempty, its last token is a doc-string token or ends in a
newline, and every newline-terminated non-doc-string token is exactly the
single newline character; the counterexample above shows the unrestricted
claim fails. -/
theorem slotCount_eq_prepass_count (ts : List Tok)
    (hgood : ∀ t ∈ ts, goodTok t = true) (hlast : lastOk ts = true) :
    slotCount true (prepass ts).2 = (prepass ts).1 := by
  have hB := slotCount_outAfter (prepass ts).2 true
  rw [outAfter_prepass ts hlast true] at hB
  simp only [Bool.toNat_true] at hB
  rw [prepass_count ts hgood]
  omega

/-- Witness for the amended C2 on a two-token stream ending in a newline
token. -/
theorem slotCount_eq_prepass_count_witness :
    slotCount true (prepass [⟨TType.NonDoc 0, ['x']⟩, ⟨TType.NonDoc 0, ['\n']⟩]).2
      = (prepass [⟨TType.NonDoc 0, ['x']⟩, ⟨TType.NonDoc 0, ['\n']⟩]).1 :=
  slotCount_eq_prepass_count _ (by decide) (by decide)

theorem lookupColor_none_iff (m : List (String × Nat)) (c : String) :
    lookupColor m c = none ↔ c ∉ m.map Prod.fst := by
  unfold lookupColor
  constructor
  · intro h hc
    rcases List.mem_map.mp hc with ⟨p, hp, hpc⟩
    have hfind := Option.map_eq_none'.mp h
    have := List.find?_eq_none.mp hfind p hp
    simp [hpc] at this
  · intro h
    apply Option.map_eq_none'.mpr
    apply List.find?_eq_none.mpr
    intro p hp
    simp only [beq_iff_eq]
    intro hpc
    exact h (List.mem_map.mpr ⟨p, hp, hpc⟩)

theorem lookupColor_isSome_iff (m : List (String × Nat)) (c : String) :
    (lookupColor m c).isSome ↔ c ∈ m.map Prod.fst := by
  constructor
  · intro hs
    by_contra hc
    rw [← lookupColor_none_iff] at hc
    rw [hc] at hs
    simp at hs
  · intro hm
    rcases ho : lookupColor m c with _ | i
    · exact absurd hm ((lookupColor_none_iff m c).mp ho)
    · simp

theorem addColor_empty (st : List (String × Nat) × Nat) : addColor st "" = st := by
  unfold addColor
  rw [if_neg]
  intro hc
  exact hc.1 rfl

theorem names_addColor_mono (st : List (String × Nat) × Nat) (c x : String)
    (h : x ∈ st.1.map Prod.fst) : x ∈ (addColor st c).1.map Prod.fst := by
  unfold addColor
  split
  · simp [h]
  · exact h

theorem names_addColor_self (st : List (String × Nat) × Nat) (c : String) (hc : c ≠ "") :
    c ∈ (addColor st c).1.map Prod.fst := by
  unfold addColor
  split
  · simp
  · rename_i hcond
    have hn : lookupColor st.1 c ≠ none := fun hn => hcond ⟨hc, hn⟩
    exact (lookupColor_isSome_iff _ _).mp (Option.ne_none_iff_isSome.mp hn)

theorem names_addStyleColors_mono (st : List (String × Nat) × Nat) (s : StyleRec) (x : String)
    (h : x ∈ st.1.map Prod.fst) : x ∈ (addStyleColors st s).1.map Prod.fst :=
  names_addColor_mono _ _ _ (names_addColor_mono _ _ _ (names_addColor_mono _ _ _ h))

theorem names_foldl_mono (styles : List StyleRec) (st : List (String × Nat) × Nat) (x : String)
    (h : x ∈ st.1.map Prod.fst) :
    x ∈ (styles.foldl addStyleColors st).1.map Prod.fst := by
  induction styles generalizing st with
  | nil => exact h
  | cons s styles ih => exact ih _ (names_addStyleColors_mono _ _ _ h)

theorem names_addStyleColors_self (st : List (String × Nat) × Nat) (s : StyleRec) :
    (s.color ≠ "" → s.color ∈ (addStyleColors st s).1.map Prod.fst) ∧
    (s.bgcolor ≠ "" → s.bgcolor ∈ (addStyleColors st s).1.map Prod.fst) ∧
    (s.border ≠ "" → s.border ∈ (addStyleColors st s).1.map Prod.fst) := by
  unfold addStyleColors
  refine ⟨fun h => ?_, fun h => ?_, fun h => ?_⟩
  · exact names_addColor_mono _ _ _ (names_addColor_mono _ _ _ (names_addColor_self _ _ h))
  · exact names_addColor_mono _ _ _ (names_addColor_self _ _ h)
  · exact names_addColor_self _ _ h

theorem foldl_mem_styles (styles : List StyleRec) (st : List (String × Nat) × Nat)
    (s : StyleRec) (hs : s ∈ styles) :
    (s.color ≠ "" → s.color ∈ (styles.foldl addStyleColors st).1.map Prod.fst) ∧
    (s.bgcolor ≠ "" → s.bgcolor ∈ (styles.foldl addStyleColors st).1.map Prod.fst) ∧
    (s.border ≠ "" → s.border ∈ (styles.foldl addStyleColors st).1.map Prod.fst) := by
  induction styles generalizing st with
  | nil => simp at hs
  | cons s0 styles ih =>
    simp only [List.foldl_cons]
    rcases List.mem_cons.mp hs with rfl | hs2
    · exact ⟨fun h => names_foldl_mono _ _ _ ((names_addStyleColors_self st s).1 h),
        fun h => names_foldl_mono _ _ _ ((names_addStyleColors_self st s).2.1 h),
        fun h => names_foldl_mono _ _ _ ((names_addStyleColors_self st s).2.2 h)⟩
    · exact ih _ hs2

theorem firstOccsAux_congr (cs : List String) : ∀ s1 s2 : List String,
    (∀ x, x ∈ s1 ↔ x ∈ s2) → firstOccsAux s1 cs = firstOccsAux s2 cs := by
  induction cs with
  | nil => intro s1 s2 h; rfl
  | cons c cs ih =>
    intro s1 s2 h
    unfold firstOccsAux
    by_cases hc : c ∈ s1
    · rw [if_pos hc, if_pos ((h c).mp hc)]
      exact ih s1 s2 h
    · rw [if_neg hc, if_neg (fun hx => hc ((h c).mpr hx))]
      rw [ih (c :: s1) (c :: s2) (fun x => by simp [h x])]

theorem firstOccsAux_cons (seen : List String) (c : String) (cs : List String) :
    firstOccsAux seen (c :: cs)
      = if c ∈ seen then firstOccsAux seen cs else c :: firstOccsAux (c :: seen) cs := rfl

theorem foldl_addColor_core (cs : List String) : ∀ (m : List (String × Nat)),
    (∀ c ∈ cs, c ≠ "") →
    cs.foldl addColor (m, m.length + 1)
      = (m ++ indexFrom (m.length + 1) (firstOccsAux (m.map Prod.fst) cs),
         m.length + 1 + (firstOccsAux (m.map Prod.fst) cs).length) := by
  induction cs with
  | nil => intro m h; simp [firstOccsAux, indexFrom]
  | cons c cs ih =>
    intro m h
    simp only [List.foldl_cons, firstOccsAux_cons]
    by_cases hc : c ∈ m.map Prod.fst
    · rw [if_pos hc]
      have hl : lookupColor m c ≠ none := fun hn => ((lookupColor_none_iff m c).mp hn) hc
      rw [show addColor (m, m.length + 1) c = (m, m.length + 1) from by
        unfold addColor; rw [if_neg]; intro hco; exact hl hco.2]
      exact ih m (fun x hx => h x (by simp [hx]))
    · rw [if_neg hc]
      have hl : lookupColor m c = none := (lookupColor_none_iff m c).mpr hc
      have hcne : c ≠ "" := h c (by simp)
      rw [show addColor (m, m.length + 1) c = (m ++ [(c, m.length + 1)], m.length + 1 + 1) from by
        unfold addColor; rw [if_pos ⟨hcne, hl⟩]]
      have hstep := ih (m ++ [(c, m.length + 1)]) (fun x hx => h x (by simp [hx]))
      rw [show (m ++ [(c, m.length + 1)]).length = m.length + 1 from by simp] at hstep
      rw [hstep]
      rw [show ((m ++ [(c, m.length + 1)]).map Prod.fst) = m.map Prod.fst ++ [c] from by simp]
      rw [firstOccsAux_congr cs (m.map Prod.fst ++ [c]) (c :: m.map Prod.fst)
        (fun x => by simp [or_comm])]
      refine Prod.ext ?_ ?_
      · simp [indexFrom]
      · simp [indexFrom]
        omega

theorem foldl_addColor_filter (cs : List String) (st : List (String × Nat) × Nat) :
    cs.foldl addColor st = (cs.filter (fun c => decide (c ≠ ""))).foldl addColor st := by
  induction cs generalizing st with
  | nil => rfl
  | cons c cs ih =>
    simp only [List.foldl_cons, List.filter_cons]
    by_cases hc : c = ""
    · subst hc
      rw [addColor_empty, if_neg (by simp)]
      exact ih st
    · rw [if_pos (by simp [hc])]
      simp only [List.foldl_cons]
      exact ih (addColor st c)

theorem foldl_addStyleColors_eq (styles : List StyleRec) :
    ∀ st, styles.foldl addStyleColors st
      = ((styles.map (fun s => [s.color, s.bgcolor, s.border])).flatten).foldl addColor st := by
  induction styles with
  | nil => intro st; rfl
  | cons s styles ih =>
    intro st
    rw [List.foldl_cons, ih (addStyleColors st s)]
    simp only [List.map_cons, List.flatten_cons, List.foldl_append]
    rfl

/-- C7: the color-table builder scans styles in enumeration order, inspects
foreground, background, then border, skips unset values, assigns the next
sequential 1-based index at the first occurrence of each distinct color,
reuses the index on repeats, and the (color, index) entries it emits are
exactly the first occurrences in assignment order; being a pure function of
the enumeration, the assignment is deterministic. -/
theorem buildColorTable_spec (styles : List StyleRec) :
    buildColorTable styles
      = (indexFrom 1 (firstOccs (collectColors styles)),
         1 + (firstOccs (collectColors styles)).length) := by
  unfold buildColorTable collectColors firstOccs
  rw [foldl_addStyleColors_eq styles ([], 1), foldl_addColor_filter]
  have h := foldl_addColor_core
      (((styles.map (fun s => [s.color, s.bgcolor, s.border])).flatten).filter
        (fun c => decide (c ≠ ""))) []
      (fun c hc => by
        have := List.of_mem_filter hc
        simpa using this)
  simpa using h

theorem colorPiece_eq (m : List (String × Nat)) (c w : String)
    (h : c ≠ "" → (lookupColor m c).isSome) :
    colorPiece m c w
      = some (if c ≠ "" then [w ++ toString ((lookupColor m c).getD 0)] else []) := by
  by_cases hc : c = ""
  · simp [colorPiece, hc]
  · rcases Option.isSome_iff_exists.mp (h hc) with ⟨i, hi⟩
    simp [colorPiece, hc, hi]

theorem tokenBuf_eq (m : List (String × Nat)) (s : StyleRec)
    (hbg : s.bgcolor ≠ "" → (lookupColor m s.bgcolor).isSome)
    (hfg : s.color ≠ "" → (lookupColor m s.color).isSome)
    (hbd : s.border ≠ "" → (lookupColor m s.border).isSome) :
    tokenBuf m s = some (specControlWords m s) := by
  unfold tokenBuf
  rw [colorPiece_eq m s.bgcolor _ hbg, colorPiece_eq m s.color _ hfg,
    colorPiece_eq m s.border _ hbd]
  simp [specControlWords]

theorem foldl_append_length (ws : List String) : ∀ a : String,
    (List.foldl (fun r t => r ++ t) a ws).length = a.length + (ws.map String.length).sum := by
  induction ws with
  | nil => intro a; simp
  | cons w ws ih =>
    intro a
    simp only [List.foldl_cons, List.map_cons, List.sum_cons]
    rw [ih (a ++ w)]
    simp [String.length_append]
    omega

theorem join_length (ws : List String) :
    (String.join ws).length = (ws.map String.length).sum := by
  unfold String.join
  rw [foldl_append_length]
  simp

theorem join_eq_empty_iff (ws : List String) (h : ∀ w ∈ ws, w ≠ "") :
    String.join ws = "" ↔ ws = [] := by
  constructor
  · intro hj
    cases ws with
    | nil => rfl
    | cons w ws2 =>
      exfalso
      have hl := congrArg String.length hj
      rw [join_length] at hl
      simp only [List.map_cons, List.sum_cons] at hl
      have hw0 : w.length = 0 := by
        have : (String.length "") = 0 := rfl
        omega
      have hdata : w.data = [] := List.length_eq_zero.mp hw0
      refine h w (by simp) ?_
      cases w with
      | mk d =>
        simp at hdata
        subst hdata
        rfl
  · intro h2
    subst h2
    rfl

theorem append_toString_ne_empty (a : String) (i : Nat) (ha : a.length ≠ 0) :
    a ++ toString i ≠ "" := by
  intro hc
  have hl := congrArg String.length hc
  rw [String.length_append] at hl
  simp at hl
  exact ha hl.1

theorem specControlWords_ne_empty (m : List (String × Nat)) (s : StyleRec) :
    ∀ w ∈ specControlWords m s, w ≠ "" := by
  intro w hw
  unfold specControlWords at hw
  simp only [List.mem_append] at hw
  rcases hw with ((((hw | hw) | hw) | hw) | hw) | hw
  · split at hw
    · simp at hw
      subst hw
      exact append_toString_ne_empty _ _ (by decide)
    · simp at hw
  · split at hw
    · simp at hw
      subst hw
      exact append_toString_ne_empty _ _ (by decide)
    · simp at hw
  · split at hw
    · simp at hw
      subst hw
      decide
    · simp at hw
  · split at hw
    · simp at hw
      subst hw
      decide
    · simp at hw
  · split at hw
    · simp at hw
      subst hw
      decide
    · simp at hw
  · split at hw
    · simp at hw
      subst hw
      exact append_toString_ne_empty _ _ (by decide)
    · simp at hw

theorem specControlWords_nil_iff (m : List (String × Nat)) (s : StyleRec) :
    specControlWords m s = [] ↔ ¬ anyStyleSet s := by
  constructor
  · intro hnil
    simp only [specControlWords, List.append_eq_nil] at hnil
    obtain ⟨⟨⟨⟨⟨n1, n2⟩, n3⟩, n4⟩, n5⟩, n6⟩ := hnil
    intro hA
    rcases hA with h | h | h | h | h | h
    · rw [if_pos h] at n1; simp at n1
    · rw [if_pos h] at n2; simp at n2
    · rw [if_pos h] at n3; simp at n3
    · rw [if_pos h] at n4; simp at n4
    · rw [if_pos h] at n5; simp at n5
    · rw [if_pos h] at n6; simp at n6
  · intro hA
    unfold anyStyleSet at hA
    push_neg at hA
    obtain ⟨a1, a2, a3, a4, a5, a6⟩ := hA
    simp [specControlWords, a1, a2, a3, a4, a5, a6]

/-- C8: under successful color lookups, the rendered output of a token is
exactly the escaped text wrapped in a brace group prefixed by the fixed-order
control words of the set style fields when any field is set, and the bare
escaped text when no field is set. -/
theorem renderToken_minimal_style (m : List (String × Nat)) (s : StyleRec) (v : List Char)
    (hbg : s.bgcolor ≠ "" → (lookupColor m s.bgcolor).isSome)
    (hfg : s.color ≠ "" → (lookupColor m s.color).isSome)
    (hbd : s.border ≠ "" → (lookupColor m s.border).isSome) :
    renderToken m s v = some (
      if anyStyleSet s then
        "\x7b" ++ String.join (specControlWords m s) ++ " "
          ++ String.mk (_escape_text v) ++ "\x7d"
      else String.mk (_escape_text v)) := by
  unfold renderToken
  rw [tokenBuf_eq m s hbg hfg hbd]
  simp only [Option.map_some']
  congr 1
  by_cases hA : anyStyleSet s
  · have hj : String.join (specControlWords m s) ≠ "" := by
      intro hj
      exact ((specControlWords_nil_iff m s).mp
        ((join_eq_empty_iff _ (specControlWords_ne_empty m s)).mp hj)) hA
    rw [if_pos hA, if_pos hj]
  · rw [if_neg hA]
    have hnil : specControlWords m s = [] := (specControlWords_nil_iff m s).mpr hA
    rw [hnil]
    simp [String.join]

/-- Witness for C8 with a one-entry color table and a bold red style. -/
theorem renderToken_minimal_style_witness :
    renderToken [("ff0000", 1)] ⟨"ff0000", "", "", true, false, false⟩ ['x']
      = some (
        if anyStyleSet ⟨"ff0000", "", "", true, false, false⟩ then
          "\x7b" ++ String.join (specControlWords [("ff0000", 1)]
              ⟨"ff0000", "", "", true, false, false⟩) ++ " "
            ++ String.mk (_escape_text ['x']) ++ "\x7d"
        else String.mk (_escape_text ['x'])) :=
  renderToken_minimal_style [("ff0000", 1)] ⟨"ff0000", "", "", true, false, false⟩ ['x']
    (by decide) (by decide) (by decide)

/-- C9: a style taken from the same enumeration that built the color table
references only colors present in the mapping, so rendering always succeeds,
the UnknownColorReference branch is unreachable, and every index the mapping
returns belongs to an emitted color-table entry. -/
theorem colorTable_complete (styles : List StyleRec) (s : StyleRec) (hs : s ∈ styles) :
    (s.bgcolor ≠ "" → (lookupColor (buildColorTable styles).1 s.bgcolor).isSome) ∧
    (s.color ≠ "" → (lookupColor (buildColorTable styles).1 s.color).isSome) ∧
    (s.border ≠ "" → (lookupColor (buildColorTable styles).1 s.border).isSome) ∧
    (∀ v, (renderToken (buildColorTable styles).1 s v).isSome) ∧
    (∀ c i, lookupColor (buildColorTable styles).1 c = some i
      → (c, i) ∈ (buildColorTable styles).1) := by
  have hmem := foldl_mem_styles styles ([], 1) s hs
  have h1 : s.bgcolor ≠ "" → (lookupColor (buildColorTable styles).1 s.bgcolor).isSome :=
    fun h => (lookupColor_isSome_iff _ _).mpr (hmem.2.1 h)
  have h2 : s.color ≠ "" → (lookupColor (buildColorTable styles).1 s.color).isSome :=
    fun h => (lookupColor_isSome_iff _ _).mpr (hmem.1 h)
  have h3 : s.border ≠ "" → (lookupColor (buildColorTable styles).1 s.border).isSome :=
    fun h => (lookupColor_isSome_iff _ _).mpr (hmem.2.2 h)
  refine ⟨h1, h2, h3, ?_, ?_⟩
  · intro v
    unfold renderToken
    rw [tokenBuf_eq _ _ h1 h2 h3]
    simp
  · intro c i hci
    unfold lookupColor at hci
    rcases hfind : (buildColorTable styles).1.find? (fun p => p.1 == c) with _ | p
    · rw [hfind] at hci
      simp at hci
    · rw [hfind] at hci
      simp only [Option.map_some'] at hci
      have hpmem := List.mem_of_find?_eq_some hfind
      have hpc := List.find?_some hfind
      rcases p with ⟨pc, pi⟩
      simp only [beq_iff_eq] at hpc
      have hpi : pi = i := by
        simpa using hci
      subst hpc
      subst hpi
      exact hpmem

/-- Witness for C9 with a one-style enumeration. -/
theorem colorTable_complete_witness :
    (lookupColor (buildColorTable [⟨"ff0000", "", "", true, false, false⟩]).1 "ff0000").isSome
    ∧ (renderToken (buildColorTable [⟨"ff0000", "", "", true, false, false⟩]).1
        ⟨"ff0000", "", "", true, false, false⟩ ['y']).isSome :=
  ⟨(colorTable_complete [⟨"ff0000", "", "", true, false, false⟩]
      ⟨"ff0000", "", "", true, false, false⟩ (by decide)).2.1 (by decide),
   (colorTable_complete [⟨"ff0000", "", "", true, false, false⟩]
      ⟨"ff0000", "", "", true, false, false⟩ (by decide)).2.2.2.1 ['y']⟩
